import Mathlib

/-!
Shallow embedding of `src/alg/synthesis_sv/recursive_decompose_ablation.rs`, the
recursive-decomposition Shapley-value engine of the repository, together with models of the
external collaborators it consumes (the coefficient algebra `iec`, the DNF formula algebra,
the partial-product engine `product_tree`, the union-combination enumerator and the map-merge
utility), which live in the repository but outside `src/` and are therefore modelled from the
specification.  Pure Rust functions become Lean functions; `HashMap`s become association
lists with a lookup semantics; `f64` shares become exact rationals.
-/

namespace RecursiveDecomposeAblation

/-- Owners are opaque identifiers; the source `OwnerId` wraps an integer. -/
abbrev OwnerId := Nat

/-- Modelled from the spec: the Coefficient Algebra value type `IECoeffs` of the crate
module `iec`, which is not under `src/`.  Per §2/§6 of the spec, a value is built from
(group-size, signed-weight) pairs and supports `+`, `-`, `*` and a terminal evaluation to a
scalar share.  We represent a value as the formal multiset of its (group-size, weight)
terms; terms of equal group size are kept separate, which the terminal evaluation sums
anyway, so this is the free presentation of the same algebra. -/
abbrev IECoeffs := Multiset (Nat × Int)

/-- Modelled from the spec: an `IECoeffs` built from a single (group-size, weight) pair,
as in the source's `IECoeffs::from([(k, w)])`. -/
def IECoeffs.single (k : Nat) (w : Int) : IECoeffs := {(k, w)}

/-- Modelled from the spec: additive inverse, negating every signed weight. -/
def IECoeffs.neg (f : IECoeffs) : IECoeffs := f.map (fun p => (p.1, -p.2))

/-- Modelled from the spec: the `+` of the coefficient algebra (term-wise union). -/
def IECoeffs.add (f g : IECoeffs) : IECoeffs := f + g

/-- Modelled from the spec: the `-` of the coefficient algebra. -/
def IECoeffs.sub (f g : IECoeffs) : IECoeffs := f + IECoeffs.neg g

/-- Modelled from the spec: the `*` of the coefficient algebra; group sizes add and signed
weights multiply, as for a generating polynomial indexed by interaction-group size. -/
def IECoeffs.mul (f g : IECoeffs) : IECoeffs :=
  f.bind (fun p => g.map (fun q => (p.1 + q.1, p.2 * q.2)))

/-- Modelled from the spec: the terminal evaluation `to_sv` of the coefficient algebra into
a scalar Shapley share.  A term of group size `k` and weight `w` contributes `w / k`; this
closed form reproduces every expected value of the repository's unit tests (a term of group
size 0 never reaches evaluation, and in `ℚ` it would contribute `w / 0 = 0`). -/
def IECoeffs.to_sv (f : IECoeffs) : ℚ :=
  (f.map (fun p => (p.2 : ℚ) / (p.1 : ℚ))).sum

/-- embeds `vertical_op` of the `iec` module (modelled from the spec §4.2: the conjunctive
combining operator is the product of the coefficient algebra). -/
def vertical_op (f g : IECoeffs) : IECoeffs := IECoeffs.mul f g

/-- embeds `vertical_identity` (modelled from the spec: the multiplicative identity term,
group size 0 and weight 1). -/
def vertical_identity : IECoeffs := IECoeffs.single 0 1

/-- embeds `horizontal_op` of the `iec` module (modelled from the spec §4.2: the disjunctive
combining operator `a ⊕ b = a + b - a*b`, the inclusion-exclusion union). -/
def horizontal_op (f g : IECoeffs) : IECoeffs :=
  IECoeffs.sub (IECoeffs.add f g) (IECoeffs.mul f g)

/-- embeds `horizontal_identity` (modelled from the spec: the neutral element of the
disjunctive combining operator, the empty value). -/
def horizontal_identity : IECoeffs := 0

/-- Modelled from the spec: a DNF formula of the crate module `dnf` (not under `src/`) is an
ordered sequence of implicants, each the finite set of its variables (§6: `implicants()`
returns an ordered sequence of variable-sets).  The list order stands for the source's
`BTreeSet` iteration order. -/
abbrev Dnf := List (Finset Nat)

/-- Modelled from the spec: `all_variables()`, the set of variables of the formula. -/
def Dnf.allVars (d : Dnf) : Finset Nat := d.foldr (fun I s => I ∪ s) ∅

/-- Modelled from the spec: the minimal-DNF normalisation the formula algebra maintains:
duplicate implicants are dropped and an implicant strictly containing another is absorbed. -/
def Dnf.minimize (d : Dnf) : Dnf :=
  d.dedup.filter (fun I => d.dedup.all (fun J => !decide (J ⊂ I)))

/-- Modelled from the spec: `partial_eval(S, true)` of the formula algebra, fixing the
variables of `S` to true: those variables disappear from every implicant and the result is
re-normalised (an implicant that becomes empty makes the formula the constant true, which
the normalisation represents as the single empty implicant). -/
def Dnf.fixTrue (d : Dnf) (S : Finset Nat) : Dnf :=
  Dnf.minimize (d.map (fun I => I \ S))

/-- Modelled from the spec: `partial_exp_complement(S)`, the formula restricted to the ways
of winning that do not use the variables of `S` (the implicants avoiding `S`). -/
def Dnf.expComplement (d : Dnf) (S : Finset Nat) : Dnf :=
  d.filter (fun I => decide (∀ x ∈ I, x ∉ S))

/-- embeds the item type produced by `leaf_exp_to_unions` (lines 278-282): a merged union of
implicants, carrying the merged variable set and how many implicants were merged. -/
structure LeafExpUnion where
  input_set : Finset Nat
  num_of_imp : Nat

/-- Modelled from the spec: the Union-Combination Enumerator of the crate module
`union_combination` (not under `src/`).  `ucFrom ext cur idxs` enumerates, depth first,
every state reachable from `cur` by extending with an increasing subsequence of the index
list `idxs`; an extension returning `none` prunes that state and everything built from it
(§6/§4.1: "pruning combinations that reach full variable coverage before the final
implicant"). -/
def ucFrom {α : Type} (ext : α → Nat → Option α) : α → List Nat → List α
  | cur, [] => [cur]
  | cur, i :: rest =>
      ucFrom ext cur rest ++
        (match ext cur i with
         | none => []
         | some nxt => ucFrom ext nxt rest)

/-- embeds `leaf_exp_to_unions` (lines 284-308): enumerate every union of a growing subset
of the leaf's implicants, starting from each single implicant, pruning a union whose merged
set already covers every variable before the last implicant has been considered. -/
def leaf_exp_to_unions (exp : Dnf) : List LeafExpUnion :=
  let var_len := (Dnf.allVars exp).card
  let n := exp.length
  (List.range n).flatMap (fun i =>
    ucFrom
      (fun old j =>
        let new_set := old.input_set ∪ exp.getD j ∅
        if new_set.card = var_len ∧ j ≠ n - 1 then none
        else some ⟨new_set, old.num_of_imp + 1⟩)
      ⟨exp.getD i ∅, 1⟩
      (List.range' (i + 1) (n - (i + 1))))

/-- embeds `leaf_exp_unions_coeffs` (lines 310-320): each union contributes a term of group
size the merged-set cardinality, with sign +1 when the number of merged implicants is odd
and -1 when it is even; the terms are summed in the coefficient algebra. -/
def leaf_exp_unions_coeffs (exp_unions : List LeafExpUnion) : IECoeffs :=
  (exp_unions.map (fun u =>
    IECoeffs.single u.input_set.card (if u.num_of_imp % 2 = 0 then -1 else 1))).sum

/-- embeds `leaf_exp_unions_interaction` (lines 322-343): every pair of unions, one from
each enumeration, contributes a term of group size the cardinality of the two merged sets'
union, with sign +1 when the total number of merged implicants is even and -1 when odd. -/
def leaf_exp_unions_interaction (exp_unions1 exp_unions2 : List LeafExpUnion) : IECoeffs :=
  (exp_unions1.map (fun u1 =>
    (exp_unions2.map (fun u2 =>
      IECoeffs.single (u1.input_set ∪ u2.input_set).card
        (if (u1.num_of_imp + u2.num_of_imp) % 2 = 0 then 1 else -1))).sum)).sum

/-- Modelled from the spec: `exp_to_input_unions` of the crate module `union_combination`
(not under `src/`): the same union-combination enumeration applied to the index-level
combining expression of a hybrid node (§4.2). -/
def exp_to_input_unions (exp : Dnf) : List LeafExpUnion := leaf_exp_to_unions exp

/-- Modelled from the spec: the auxiliary hybrid coefficient structure `HybridCoeffs` of the
`iec` module (not under `src/`), "derived from all children's coefficients" (§3/§4.1); we
keep the list of children coefficients, which its evaluation functions consume. -/
abbrev HybridCoeffs := List IECoeffs

/-- Modelled from the spec: `HybridCoeffs::new`, derived from the children coefficients. -/
def HybridCoeffs.new (children_coeffs : List IECoeffs) : HybridCoeffs := children_coeffs

/-- Modelled from the spec: the product, in the coefficient algebra, of the children
coefficients selected by an index set; the hybrid analogue of `x^|S|` in the leaf case. -/
def HybridCoeffs.setProd (h : HybridCoeffs) (S : Finset Nat) : IECoeffs :=
  ((S.sort (· ≤ ·)).map (fun i => h.getD i 0)).foldr IECoeffs.mul vertical_identity

/-- Modelled from the spec: evaluation of the hybrid coefficient structure against a
union-enumeration over the index domain (§4.2), mirroring `leaf_exp_unions_coeffs` with the
children's coefficients substituted for the index variables. -/
def HybridCoeffs.exp_unions_coeffs (h : HybridCoeffs) (us : List LeafExpUnion) : IECoeffs :=
  (us.map (fun u =>
    if u.num_of_imp % 2 = 0 then IECoeffs.neg (HybridCoeffs.setProd h u.input_set)
    else HybridCoeffs.setProd h u.input_set)).sum

/-- Modelled from the spec: the hybrid interaction evaluation, mirroring
`leaf_exp_unions_interaction` with children coefficients substituted. -/
def HybridCoeffs.exp_unions_interaction (h : HybridCoeffs)
    (us1 us2 : List LeafExpUnion) : IECoeffs :=
  (us1.map (fun u1 =>
    (us2.map (fun u2 =>
      if (u1.num_of_imp + u2.num_of_imp) % 2 = 0
      then HybridCoeffs.setProd h (u1.input_set ∪ u2.input_set)
      else IECoeffs.neg (HybridCoeffs.setProd h (u1.input_set ∪ u2.input_set)))).sum)).sum

/-- Modelled from the spec: `HybridCoeffs::exp_coeffs`, evaluating the structure against the
hybrid combining expression via its union-enumeration. -/
def HybridCoeffs.exp_coeffs (h : HybridCoeffs) (exp : Dnf) : IECoeffs :=
  HybridCoeffs.exp_unions_coeffs h (exp_to_input_unions exp)

/-- Modelled from the spec: the Partial-Product Engine of the crate module `product_tree`
(not under `src/`), §6: for every index, the combination, under the given associative
operator and identity, of all the OTHER entries of the list (here realised as the fold of
the prefix combined with the fold of the suffix). -/
def all_products (op : IECoeffs → IECoeffs → IECoeffs) (e : IECoeffs)
    (l : List IECoeffs) : List IECoeffs :=
  (List.range l.length).map (fun i =>
    op ((l.take i).foldr op e) ((l.drop (i + 1)).foldr op e))

/-- embeds `ShapleyValues` (a `HashMap<OwnerId, f64>` in the source) as an association list
with first-match lookup; consing an entry models `HashMap::insert`'s overwrite. -/
abbrev ShapleyValues := List (OwnerId × ℚ)

/-- Lookup semantics of a `ShapleyValues` map. -/
def svFun (m : ShapleyValues) (k : OwnerId) : Option ℚ :=
  (m.find? (fun p => p.1 == k)).map Prod.snd

/-- Key set of a `ShapleyValues` map. -/
def svKeys (m : ShapleyValues) : List OwnerId := m.map Prod.fst

/-- Modelled from the spec: `utils::hashmap_reduce` (not under `src/`) merges two per-owner
maps (§5: union of disjoint-keyed mappings); in the association-list model the second map's
entries take precedence, matching iterated `HashMap` insertion. -/
def hashmap_reduce (a b : ShapleyValues) : ShapleyValues := b ++ a

/-- Modelled from the spec: the same `utils::hashmap_reduce` with its defensive disjointness
check made explicit, per §7: on a key collision the merge must fail loudly rather than drop
or overwrite a share; `none` models that loud failure (a panic in Rust). -/
def hashmap_reduce_checked (a b : ShapleyValues) : Option ShapleyValues :=
  if ∀ k ∈ svKeys a, k ∉ svKeys b then some (hashmap_reduce a b) else none

/-- Merge of a list of per-owner maps by iterated `hashmap_reduce`, one of the association
orders the source's parallel `reduce` may take. -/
def mergeAll (L : List ShapleyValues) : ShapleyValues := L.foldl hashmap_reduce []

/-- embeds `AblationType` (lines 13-18). -/
inductive AblationType where
  | NoHorizontal
  | NoVertical
  | NoHybrid
  deriving DecidableEq

/-- Whether the setting disables the conjunctive (vertical) decomposition mode, per the
guard on the `And` arm of `DecomposeTree::new` (line 58). -/
def AblationType.disablesVertical (a : AblationType) : Bool :=
  a == AblationType.NoVertical

/-- Whether the setting disables the disjunctive (horizontal) decomposition mode, per the
guard on the `Or` arm of `DecomposeTree::new` (line 81). -/
def AblationType.disablesHorizontal (a : AblationType) : Bool :=
  a == AblationType.NoHorizontal

/-- Whether the setting disables the hybrid decomposition mode, per the guard on the
`Hybrid` arm of `DecomposeTree::new` (line 107). -/
def AblationType.disablesHybrid (a : AblationType) : Bool :=
  a == AblationType.NoHybrid

/-- Modelled from the spec: the structural decomposition `RecursiveDecompose` of the crate
module `dnf` (not under `src/`), §3: a tagged union of Variable, Conjunctive, Disjunctive
and Hybrid nodes; `Exp` represents a sub-formula with no further decomposition available
(§4.1: such a node is always expanded into an irreducible leaf). -/
inductive RecursiveDecompose where
  | Var (id : OwnerId)
  | And (children : List RecursiveDecompose)
  | Or (children : List RecursiveDecompose)
  | Hybrid (hybrid_exp : Dnf) (sub_exps : List RecursiveDecompose)
  | Exp (exp : Dnf)

/-- Product of two DNFs: the conjunction, every union of one implicant from each. -/
def Dnf.cross (d1 d2 : Dnf) : Dnf := d1.flatMap (fun I => d2.map (fun J => I ∪ J))

/-- Conjunction of a list of DNFs; the empty conjunction is the constant true. -/
def Dnf.andAll (ds : List Dnf) : Dnf := ds.foldr Dnf.cross [∅]

/-- Substitution of sub-formulas for the index variables of a combining expression. -/
def Dnf.substitute (hexp : Dnf) (ds : List Dnf) : Dnf :=
  hexp.flatMap (fun S => Dnf.andAll ((S.sort (· ≤ ·)).map (fun i => ds.getD i [])))

mutual

/-- Modelled from the spec: `RecursiveDecompose::expand` of the crate module `dnf` (not
under `src/`), §4.1: the full DNF of the subtree is materialised explicitly, flattening
nested structure into a flat implicant list. -/
def RecursiveDecompose.expand : RecursiveDecompose → Dnf
  | .Var id => [{id}]
  | .And children => Dnf.minimize (Dnf.andAll (RecursiveDecompose.expandList children))
  | .Or children =>
      Dnf.minimize ((RecursiveDecompose.expandList children).foldr (fun a b => a ++ b) [])
  | .Hybrid hexp subs =>
      Dnf.minimize (Dnf.substitute hexp (RecursiveDecompose.expandList subs))
  | .Exp exp => exp

/-- Expansion of a list of decompositions, child by child. -/
def RecursiveDecompose.expandList : List RecursiveDecompose → List Dnf
  | [] => []
  | c :: cs => RecursiveDecompose.expand c :: RecursiveDecompose.expandList cs

end

/-- embeds the tree type `DecomposeTree` (lines 30-52). -/
inductive DecomposeTree where
  | Var (id : OwnerId)
  | And (coeffs : Option IECoeffs) (products : List IECoeffs) (children : List DecomposeTree)
  | Or (coeffs : Option IECoeffs) (products : List IECoeffs) (children : List DecomposeTree)
  | Hybrid (coeffs : Option IECoeffs) (hybrid_coeffs : HybridCoeffs) (hybrid_exp : Dnf)
      (children : List DecomposeTree)
  | Leaf (coeffs : Option IECoeffs) (exp : Dnf)

instance : Inhabited DecomposeTree := ⟨DecomposeTree.Var 0⟩

/-- The stored coefficient field of a node; a `Var` node's coefficient is the unit
`[(1, 1)]` returned directly by `DecomposeTree::coeffs` (line 145) without any unwrap. -/
def DecomposeTree.coeffsOpt : DecomposeTree → Option IECoeffs
  | .Var _ => some (IECoeffs.single 1 1)
  | .And coeffs _ _ => coeffs
  | .Or coeffs _ _ => coeffs
  | .Hybrid coeffs _ _ _ => coeffs
  | .Leaf coeffs _ => coeffs

/-- embeds `DecomposeTree::coeffs` (lines 143-151); the `none` case models the panic of the
source's `unwrap`, which the construction invariant keeps unreachable for children. -/
def DecomposeTree.coeffs (t : DecomposeTree) : IECoeffs :=
  match DecomposeTree.coeffsOpt t with
  | some c => c
  | none => 0

/-- The owner id of a `Var` node, `none` otherwise. -/
def DecomposeTree.varId? : DecomposeTree → Option OwnerId
  | .Var id => some id
  | .And _ _ _ => none
  | .Or _ _ _ => none
  | .Hybrid _ _ _ _ => none
  | .Leaf _ _ => none

/-- Whether a node is a `Var` node, as tested by the `matches!` filters of `cal_sv`. -/
def DecomposeTree.isVar (t : DecomposeTree) : Bool := (DecomposeTree.varId? t).isSome

/-- Whether a node is an irreducible `Leaf`. -/
def DecomposeTree.isLeaf : DecomposeTree → Bool
  | .Leaf _ _ => true
  | _ => false

/-- embeds the fallback arm of `DecomposeTree::new` (lines 129-139): the subtree is expanded
into a flat DNF and becomes an irreducible leaf, whose coefficient (withheld at the root) is
the union-combination inclusion-exclusion sum. -/
def DecomposeTree.mkLeaf (input : RecursiveDecompose) (is_root : Bool) : DecomposeTree :=
  let exp := RecursiveDecompose.expand input
  let coeffs :=
    if is_root then none
    else some (leaf_exp_unions_coeffs (leaf_exp_to_unions exp))
  DecomposeTree.Leaf coeffs exp

mutual

/-- embeds `DecomposeTree::new` (lines 55-141): build each child with `is_root = false`,
collect the children's coefficients, feed them to the partial-product engine with the
combining operator of the node kind, withhold the node's own coefficient exactly at the
root; an arm whose mode is disabled by the ablation setting falls through to leaf
expansion. -/
def DecomposeTree.new : RecursiveDecompose → Bool → AblationType → DecomposeTree
  | .Var id, _, _ => DecomposeTree.Var id
  | .And children, is_root, ablation_type =>
      if ablation_type = AblationType.NoVertical then
        DecomposeTree.mkLeaf (.And children) is_root
      else
        let children' := DecomposeTree.newList children ablation_type
        let children_coeffs := children'.map DecomposeTree.coeffs
        let products := all_products vertical_op vertical_identity children_coeffs
        let coeffs :=
          if is_root then none
          else some (children_coeffs.foldr vertical_op vertical_identity)
        DecomposeTree.And coeffs products children'
  | .Or children, is_root, ablation_type =>
      if ablation_type = AblationType.NoHorizontal then
        DecomposeTree.mkLeaf (.Or children) is_root
      else
        let children' := DecomposeTree.newList children ablation_type
        let children_coeffs := children'.map DecomposeTree.coeffs
        let products := all_products horizontal_op horizontal_identity children_coeffs
        let coeffs :=
          if is_root then none
          else some (children_coeffs.foldr horizontal_op horizontal_identity)
        DecomposeTree.Or coeffs products children'
  | .Hybrid hybrid_exp sub_exps, is_root, ablation_type =>
      if ablation_type = AblationType.NoHybrid then
        DecomposeTree.mkLeaf (.Hybrid hybrid_exp sub_exps) is_root
      else
        let children' := DecomposeTree.newList sub_exps ablation_type
        let children_coeffs := children'.map DecomposeTree.coeffs
        let hybrid_coeffs := HybridCoeffs.new children_coeffs
        let coeffs :=
          if is_root then none
          else some (HybridCoeffs.exp_coeffs hybrid_coeffs hybrid_exp)
        DecomposeTree.Hybrid coeffs hybrid_coeffs hybrid_exp children'
  | .Exp exp, is_root, _ => DecomposeTree.mkLeaf (.Exp exp) is_root

/-- Child-by-child tree construction, every child built with `is_root = false`. -/
def DecomposeTree.newList : List RecursiveDecompose → AblationType → List DecomposeTree
  | [], _ => []
  | c :: cs, ablation_type =>
      DecomposeTree.new c false ablation_type :: DecomposeTree.newList cs ablation_type

end

/-- Index of the first `Var` child, mirroring `var_children.first()` in `cal_sv`. -/
def firstVarIdx : List DecomposeTree → Nat → Option Nat
  | [], _ => none
  | c :: cs, i =>
      match DecomposeTree.varId? c with
      | some _ => some i
      | none => firstVarIdx cs (i + 1)

/-- embeds the fast-path insertion loop of `cal_sv` (lines 183-190 and 217-224): every `Var`
child receives the same closed-form share `sv`, inserted into the accumulated map. -/
def insertVarShares : List DecomposeTree → ℚ → ShapleyValues → ShapleyValues
  | [], _, m => m
  | c :: cs, sv, m =>
      match DecomposeTree.varId? c with
      | some a => insertVarShares cs sv ((a, sv) :: m)
      | none => insertVarShares cs sv m

/-- embeds the next-weight computation of the irreducible-leaf branch of `cal_sv`
(lines 252-267) for one variable `c` of the leaf's formula. -/
def leafVarNext (exp : Dnf) (gamma_map : IECoeffs) (c : OwnerId) : IECoeffs :=
  let exp_p2 := Dnf.fixTrue exp {c}
  let exp_p3 := Dnf.expComplement exp {c}
  let exp_p2_unions := leaf_exp_to_unions exp_p2
  let map_p2 := leaf_exp_unions_coeffs exp_p2_unions
  let exp_p3_unions := leaf_exp_to_unions exp_p3
  let iece_map := leaf_exp_unions_interaction exp_p2_unions exp_p3_unions
  if Dnf.allVars exp_p2 = ∅ then
    IECoeffs.sub gamma_map (IECoeffs.mul gamma_map iece_map)
  else
    IECoeffs.mul gamma_map (IECoeffs.sub map_p2 iece_map)

/-- embeds the irreducible-leaf branch of `cal_sv` (lines 249-273): one singleton map per
variable of the leaf's formula (iterated in the source's sorted set order), merged by
`hashmap_reduce`. -/
def leafSv (exp : Dnf) (gamma_map : IECoeffs) : ShapleyValues :=
  mergeAll (((Dnf.allVars exp).sort (· ≤ ·)).map (fun c =>
    [(c, (IECoeffs.mul (IECoeffs.single 1 1) (leafVarNext exp gamma_map c)).to_sv)]))

mutual

/-- embeds `DecomposeTree::cal_sv` (lines 153-275): the top-down propagation of the
accumulated weight `gamma_map`.  A `Var` node yields a singleton share; an `And` node
recurses into each non-`Var` child with weight `gamma_map * products[i]` and handles `Var`
children by the closed-form fast path at the first `Var` child's index; an `Or` node does
the same with weight `gamma_map - gamma_map * products[i]`; a `Hybrid` node recurses with
the direct-minus-interaction weight of the index-level expression; a `Leaf` runs the
per-variable inclusion-exclusion. -/
def DecomposeTree.cal_sv : DecomposeTree → IECoeffs → ShapleyValues
  | .Var owner_id, gamma_map =>
      [(owner_id, (IECoeffs.mul (IECoeffs.single 1 1) gamma_map).to_sv)]
  | .And _ products children, gamma_map =>
      let ans :=
        DecomposeTree.nonVarMerge (fun g p => IECoeffs.mul g p) children products 0 gamma_map
      (match firstVarIdx children 0 with
       | none => ans
       | some i =>
           insertVarShares children
             ((IECoeffs.mul (IECoeffs.single 1 1)
               (IECoeffs.mul gamma_map (products.getD i 0))).to_sv) ans)
  | .Or _ products children, gamma_map =>
      let ans :=
        DecomposeTree.nonVarMerge (fun g p => IECoeffs.sub g (IECoeffs.mul g p))
          children products 0 gamma_map
      (match firstVarIdx children 0 with
       | none => ans
       | some i =>
           insertVarShares children
             ((IECoeffs.mul (IECoeffs.single 1 1)
               (IECoeffs.sub gamma_map (IECoeffs.mul gamma_map (products.getD i 0)))).to_sv) ans)
  | .Hybrid _ hybrid_coeffs hybrid_exp children, gamma_map =>
      DecomposeTree.hybridMerge children hybrid_coeffs hybrid_exp 0 gamma_map
  | .Leaf _ exp, gamma_map => leafSv exp gamma_map

/-- embeds the filtered parallel recursion of the `And`/`Or` branches of `cal_sv`
(lines 172-181 and 206-215): `Var` children are skipped, every other child at index `i`
recurses with weight `W gamma_map products[i]`, and the results are merged by
`hashmap_reduce`. -/
def DecomposeTree.nonVarMerge (W : IECoeffs → IECoeffs → IECoeffs) :
    List DecomposeTree → List IECoeffs → Nat → IECoeffs → ShapleyValues
  | [], _, _, _ => []
  | c :: cs, products, i, gamma_map =>
      let rest := DecomposeTree.nonVarMerge W cs products (i + 1) gamma_map
      if DecomposeTree.isVar c then rest
      else
        hashmap_reduce (DecomposeTree.cal_sv c (W gamma_map (products.getD i 0))) rest

/-- embeds the `Hybrid` branch of `cal_sv` (lines 228-248): child `i` recurses with weight
`gamma_map * (direct - interaction)` of the index-level partial evaluations. -/
def DecomposeTree.hybridMerge :
    List DecomposeTree → HybridCoeffs → Dnf → Nat → IECoeffs → ShapleyValues
  | [], _, _, _, _ => []
  | c :: cs, hybrid_coeffs, hybrid_exp, i, gamma_map =>
      let exp_p2 := Dnf.fixTrue hybrid_exp {i}
      let exp_p3 := Dnf.expComplement hybrid_exp {i}
      let exp_p2_unions := exp_to_input_unions exp_p2
      let exp_p3_unions := exp_to_input_unions exp_p3
      let map_p2 := HybridCoeffs.exp_unions_coeffs hybrid_coeffs exp_p2_unions
      let iece_map :=
        HybridCoeffs.exp_unions_interaction hybrid_coeffs exp_p2_unions exp_p3_unions
      hashmap_reduce
        (DecomposeTree.cal_sv c (IECoeffs.mul gamma_map (IECoeffs.sub map_p2 iece_map)))
        (DecomposeTree.hybridMerge cs hybrid_coeffs hybrid_exp (i + 1) gamma_map)

end

/-- embeds `cal_sv_recursive_decompose_ablation` (lines 20-28); the upstream structural
analysis `recursive_decompose` is an external collaborator (§6, not under `src/`) and is
taken as a parameter. -/
def cal_sv_recursive_decompose_ablation
    (recursive_decompose : Dnf → Finset OwnerId → RecursiveDecompose)
    (dnf : Dnf) (owner_set : Finset OwnerId) (ablation_type : AblationType) : ShapleyValues :=
  let d := recursive_decompose dnf owner_set
  let tree := DecomposeTree.new d true ablation_type
  let gamma_map := IECoeffs.single 0 1
  DecomposeTree.cal_sv tree gamma_map

/-- Total of the shares of a per-owner map. -/
def svSum (m : ShapleyValues) : ℚ := (m.map Prod.snd).sum

/-- Per-child propagation results of an `And`/`Or` node: the child at absolute index `i`
recurses with weight `W gamma_map products[i]`. -/
def childResults (W : IECoeffs → IECoeffs → IECoeffs) :
    List DecomposeTree → List IECoeffs → Nat → IECoeffs → List ShapleyValues
  | [], _, _, _ => []
  | c :: cs, products, i, gamma_map =>
      DecomposeTree.cal_sv c (W gamma_map (products.getD i 0)) ::
        childResults W cs products (i + 1) gamma_map

/-- The sub-list of `childResults` at the non-`Var` children. -/
def childResultsNV (W : IECoeffs → IECoeffs → IECoeffs) :
    List DecomposeTree → List IECoeffs → Nat → IECoeffs → List ShapleyValues
  | [], _, _, _ => []
  | c :: cs, products, i, gamma_map =>
      if DecomposeTree.isVar c then childResultsNV W cs products (i + 1) gamma_map
      else
        DecomposeTree.cal_sv c (W gamma_map (products.getD i 0)) ::
          childResultsNV W cs products (i + 1) gamma_map

/-- The owners of the `Var` children, in order. -/
def varOwners (cs : List DecomposeTree) : List OwnerId :=
  cs.filterMap DecomposeTree.varId?

/-- Key-disjointness of two per-owner maps. -/
def svDisjoint (r s : ShapleyValues) : Prop :=
  ∀ k, k ∈ svKeys r → k ∉ svKeys s

theorem IECoeffs.mul_as_bind (f g : IECoeffs) :
    IECoeffs.mul f g = f.bind (fun p => g.bind (fun q => {(p.1 + q.1, p.2 * q.2)})) := by
  unfold IECoeffs.mul
  congr 1
  funext p
  exact (Multiset.bind_singleton _ _).symm

theorem IECoeffs.mul_comm (f g : IECoeffs) : IECoeffs.mul f g = IECoeffs.mul g f := by
  unfold IECoeffs.mul
  rw [Multiset.bind_map_comm]
  congr 1
  funext q
  refine Multiset.map_congr rfl ?_
  intro p _
  simp [Nat.add_comm, Int.mul_comm]

theorem IECoeffs.mul_assoc (f g h : IECoeffs) :
    IECoeffs.mul (IECoeffs.mul f g) h = IECoeffs.mul f (IECoeffs.mul g h) := by
  simp only [IECoeffs.mul_as_bind, Multiset.bind_assoc, Multiset.singleton_bind]
  congr 1
  funext p
  congr 1
  funext q
  congr 1
  funext r
  simp [Nat.add_assoc, Int.mul_assoc]

theorem IECoeffs.one_mul (g : IECoeffs) : IECoeffs.mul vertical_identity g = g := by
  show Multiset.bind {((0 : Nat), (1 : Int))} _ = g
  rw [Multiset.singleton_bind]
  simp

theorem IECoeffs.zero_mul (g : IECoeffs) : IECoeffs.mul 0 g = 0 := by
  simp [IECoeffs.mul]

theorem IECoeffs.mul_zero (f : IECoeffs) : IECoeffs.mul f 0 = 0 := by
  simp [IECoeffs.mul]

theorem IECoeffs.neg_zero : IECoeffs.neg 0 = 0 := by
  simp [IECoeffs.neg]

theorem IECoeffs.neg_add (a b : IECoeffs) :
    IECoeffs.neg (a + b) = IECoeffs.neg a + IECoeffs.neg b := by
  simp [IECoeffs.neg]

theorem IECoeffs.neg_neg (a : IECoeffs) : IECoeffs.neg (IECoeffs.neg a) = a := by
  simp [IECoeffs.neg, Multiset.map_map, Function.comp]

theorem IECoeffs.add_mul (a b c : IECoeffs) :
    IECoeffs.mul (a + b) c = IECoeffs.mul a c + IECoeffs.mul b c := by
  simp [IECoeffs.mul, Multiset.add_bind]

theorem IECoeffs.mul_add (a b c : IECoeffs) :
    IECoeffs.mul a (b + c) = IECoeffs.mul a b + IECoeffs.mul a c := by
  unfold IECoeffs.mul
  rw [← Multiset.bind_add]
  congr 1
  funext p
  simp [Multiset.map_add]

theorem IECoeffs.neg_mul (a b : IECoeffs) :
    IECoeffs.mul (IECoeffs.neg a) b = IECoeffs.neg (IECoeffs.mul a b) := by
  unfold IECoeffs.mul IECoeffs.neg
  rw [Multiset.bind_map, Multiset.map_bind]
  congr 1
  funext p
  rw [Multiset.map_map]
  refine Multiset.map_congr rfl ?_
  intro q _
  simp

theorem IECoeffs.mul_neg (a b : IECoeffs) :
    IECoeffs.mul a (IECoeffs.neg b) = IECoeffs.neg (IECoeffs.mul a b) := by
  rw [IECoeffs.mul_comm, IECoeffs.neg_mul, IECoeffs.mul_comm]

theorem horizontal_op_comm (a b : IECoeffs) : horizontal_op a b = horizontal_op b a := by
  unfold horizontal_op IECoeffs.sub IECoeffs.add
  rw [IECoeffs.mul_comm, add_comm a b]

theorem horizontal_op_zero_left (b : IECoeffs) : horizontal_op horizontal_identity b = b := by
  unfold horizontal_op horizontal_identity IECoeffs.sub IECoeffs.add
  rw [IECoeffs.zero_mul, IECoeffs.neg_zero]
  simp

theorem horizontal_op_assoc (a b c : IECoeffs) :
    horizontal_op (horizontal_op a b) c = horizontal_op a (horizontal_op b c) := by
  unfold horizontal_op IECoeffs.sub IECoeffs.add
  simp only [IECoeffs.add_mul, IECoeffs.mul_add, IECoeffs.neg_mul, IECoeffs.mul_neg,
    IECoeffs.neg_add, IECoeffs.neg_neg, IECoeffs.mul_assoc]
  abel

theorem vertical_op_comm (a b : IECoeffs) : vertical_op a b = vertical_op b a :=
  IECoeffs.mul_comm a b

theorem vertical_op_assoc (a b c : IECoeffs) :
    vertical_op (vertical_op a b) c = vertical_op a (vertical_op b c) :=
  IECoeffs.mul_assoc a b c

theorem vertical_op_id_left (b : IECoeffs) : vertical_op vertical_identity b = b :=
  IECoeffs.one_mul b

theorem foldr_op_append (op : IECoeffs → IECoeffs → IECoeffs) (e : IECoeffs)
    (hid : ∀ x, op e x = x) (ha : ∀ x y z, op (op x y) z = op x (op y z))
    (A B : List IECoeffs) :
    (A ++ B).foldr op e = op (A.foldr op e) (B.foldr op e) := by
  induction A with
  | nil => simp [hid]
  | cons a A ih => simp only [List.cons_append, List.foldr_cons, ih, ha]

theorem foldr_op_perm (op : IECoeffs → IECoeffs → IECoeffs) (e : IECoeffs)
    (hc : ∀ x y, op x y = op y x) (ha : ∀ x y z, op (op x y) z = op x (op y z))
    {l1 l2 : List IECoeffs} (h : l1.Perm l2) :
    l1.foldr op e = l2.foldr op e := by
  induction h with
  | nil => rfl
  | cons x _ ih => simp only [List.foldr_cons, ih]
  | swap x y l => simp only [List.foldr_cons, ← ha, hc y x]
  | trans _ _ ih1 ih2 => exact ih1.trans ih2

theorem perm_getD_cons_eraseIdx {α : Type} (d : α) :
    ∀ (l : List α) (m : Nat), m < l.length → l.Perm (l.getD m d :: l.eraseIdx m)
  | [], m, hm => absurd hm (by simp)
  | a :: t, 0, _ => by simp
  | a :: t, m + 1, hm => by
      have ih := perm_getD_cons_eraseIdx d t m (by simpa using hm)
      have h1 : (a :: t).Perm (a :: (t.getD m d :: t.eraseIdx m)) := List.Perm.cons a ih
      have h2 : (a :: (t.getD m d :: t.eraseIdx m)).Perm (t.getD m d :: a :: t.eraseIdx m) :=
        List.Perm.swap _ _ _
      simpa using h1.trans h2

theorem all_products_length (op : IECoeffs → IECoeffs → IECoeffs) (e : IECoeffs)
    (l : List IECoeffs) : (all_products op e l).length = l.length := by
  simp [all_products]

theorem all_products_getD (op : IECoeffs → IECoeffs → IECoeffs) (e : IECoeffs)
    (l : List IECoeffs) (m : Nat) (hm : m < l.length) :
    (all_products op e l).getD m 0 =
      op ((l.take m).foldr op e) ((l.drop (m + 1)).foldr op e) := by
  unfold all_products
  rw [List.getD_eq_getElem _ _ (by simpa using hm)]
  simp [List.getElem_map, List.getElem_range]

theorem all_products_getD_eq (op : IECoeffs → IECoeffs → IECoeffs) (e : IECoeffs)
    (hc : ∀ x y, op x y = op y x) (ha : ∀ x y z, op (op x y) z = op x (op y z))
    (hid : ∀ x, op e x = x) (l : List IECoeffs) (i j : Nat)
    (hi : i < l.length) (hj : j < l.length) (hv : l.getD i 0 = l.getD j 0) :
    (all_products op e l).getD i 0 = (all_products op e l).getD j 0 := by
  have p1 := perm_getD_cons_eraseIdx (0 : IECoeffs) l i hi
  have p2 := perm_getD_cons_eraseIdx (0 : IECoeffs) l j hj
  rw [hv] at p1
  have perm : (l.eraseIdx i).Perm (l.eraseIdx j) :=
    List.Perm.cons_inv (p1.symm.trans p2)
  rw [all_products_getD op e l i hi, all_products_getD op e l j hj,
    ← foldr_op_append op e hid ha, ← foldr_op_append op e hid ha,
    ← List.eraseIdx_eq_take_drop_succ, ← List.eraseIdx_eq_take_drop_succ]
  exact foldr_op_perm op e hc ha perm

theorem svFun_nil (k : OwnerId) : svFun [] k = none := rfl

theorem svFun_cons (a : OwnerId) (v : ℚ) (m : ShapleyValues) (k : OwnerId) :
    svFun ((a, v) :: m) k = if a = k then some v else svFun m k := by
  by_cases h : a = k <;> simp [svFun, List.find?_cons, h]

theorem svFun_append (m n : ShapleyValues) (k : OwnerId) :
    svFun (m ++ n) k = (svFun m k).or (svFun n k) := by
  unfold svFun
  rw [List.find?_append]
  cases h : List.find? (fun p => p.1 == k) m <;> simp [h]

theorem svKeys_cons (a : OwnerId) (v : ℚ) (m : ShapleyValues) :
    svKeys ((a, v) :: m) = a :: svKeys m := rfl

theorem svFun_eq_none_iff (m : ShapleyValues) (k : OwnerId) :
    svFun m k = none ↔ k ∉ svKeys m := by
  induction m with
  | nil => simp [svFun, svKeys]
  | cons p m ih =>
      obtain ⟨a, v⟩ := p
      rw [svFun_cons, svKeys_cons]
      by_cases h : a = k
      · subst h
        simp
      · rw [if_neg h, ih, List.mem_cons]
        constructor
        · rintro hk (rfl | h2)
          · exact h rfl
          · exact hk h2
        · intro hk h2
          exact hk (Or.inr h2)

theorem svFun_isSome_iff (m : ShapleyValues) (k : OwnerId) :
    (svFun m k).isSome = true ↔ k ∈ svKeys m := by
  rw [← Decidable.not_iff_not]
  simp [Option.isSome_iff_ne_none, svFun_eq_none_iff]

theorem svKeys_append (m n : ShapleyValues) : svKeys (m ++ n) = svKeys m ++ svKeys n :=
  List.map_append _ _ _

theorem mergeAll_foldl (L : List ShapleyValues) :
    ∀ init, L.foldl hashmap_reduce init = mergeAll L ++ init := by
  induction L with
  | nil => intro init; simp [mergeAll]
  | cons r L ih =>
      intro init
      show L.foldl hashmap_reduce (hashmap_reduce init r) = mergeAll (r :: L) ++ init
      have hm : mergeAll (r :: L) = mergeAll L ++ r := by
        show L.foldl hashmap_reduce (hashmap_reduce [] r) = mergeAll L ++ r
        rw [ih]
        simp [hashmap_reduce]
      rw [hm, ih, hashmap_reduce, List.append_assoc]

theorem mergeAll_cons (r : ShapleyValues) (L : List ShapleyValues) :
    mergeAll (r :: L) = mergeAll L ++ r := by
  show L.foldl hashmap_reduce (hashmap_reduce [] r) = mergeAll L ++ r
  rw [mergeAll_foldl]
  simp [hashmap_reduce]

theorem mem_svKeys_mergeAll (L : List ShapleyValues) (k : OwnerId) :
    k ∈ svKeys (mergeAll L) ↔ ∃ r ∈ L, k ∈ svKeys r := by
  induction L with
  | nil => simp [mergeAll, svKeys]
  | cons r L ih =>
      rw [mergeAll_cons, svKeys_append]
      simp only [List.mem_append, ih, List.mem_cons]
      constructor
      · rintro (⟨s, hs, hk⟩ | hk)
        · exact ⟨s, Or.inr hs, hk⟩
        · exact ⟨r, Or.inl rfl, hk⟩
      · rintro ⟨s, hs | hs, hk⟩
        · exact Or.inr (hs ▸ hk)
        · exact Or.inl ⟨s, hs, hk⟩

theorem cal_sv_Var (a : OwnerId) (gamma_map : IECoeffs) :
    DecomposeTree.cal_sv (.Var a) gamma_map =
      [(a, (IECoeffs.mul (IECoeffs.single 1 1) gamma_map).to_sv)] := by
  simp [DecomposeTree.cal_sv]

theorem cal_sv_And (co : Option IECoeffs) (products : List IECoeffs)
    (children : List DecomposeTree) (gamma_map : IECoeffs) :
    DecomposeTree.cal_sv (.And co products children) gamma_map =
      (match firstVarIdx children 0 with
       | none =>
           DecomposeTree.nonVarMerge (fun g p => IECoeffs.mul g p) children products 0 gamma_map
       | some i =>
           insertVarShares children
             ((IECoeffs.mul (IECoeffs.single 1 1)
               (IECoeffs.mul gamma_map (products.getD i 0))).to_sv)
             (DecomposeTree.nonVarMerge (fun g p => IECoeffs.mul g p)
               children products 0 gamma_map)) := by
  simp [DecomposeTree.cal_sv]

theorem cal_sv_Or (co : Option IECoeffs) (products : List IECoeffs)
    (children : List DecomposeTree) (gamma_map : IECoeffs) :
    DecomposeTree.cal_sv (.Or co products children) gamma_map =
      (match firstVarIdx children 0 with
       | none =>
           DecomposeTree.nonVarMerge (fun g p => IECoeffs.sub g (IECoeffs.mul g p))
             children products 0 gamma_map
       | some i =>
           insertVarShares children
             ((IECoeffs.mul (IECoeffs.single 1 1)
               (IECoeffs.sub gamma_map (IECoeffs.mul gamma_map (products.getD i 0)))).to_sv)
             (DecomposeTree.nonVarMerge (fun g p => IECoeffs.sub g (IECoeffs.mul g p))
               children products 0 gamma_map)) := by
  simp [DecomposeTree.cal_sv]

theorem cal_sv_Leaf (co : Option IECoeffs) (exp : Dnf) (gamma_map : IECoeffs) :
    DecomposeTree.cal_sv (.Leaf co exp) gamma_map = leafSv exp gamma_map := by
  simp [DecomposeTree.cal_sv]

theorem nonVarMerge_nil (W : IECoeffs → IECoeffs → IECoeffs) (products : List IECoeffs)
    (i : Nat) (gamma_map : IECoeffs) :
    DecomposeTree.nonVarMerge W [] products i gamma_map = [] := by
  simp [DecomposeTree.nonVarMerge]

theorem nonVarMerge_cons (W : IECoeffs → IECoeffs → IECoeffs) (c : DecomposeTree)
    (cs : List DecomposeTree) (products : List IECoeffs) (i : Nat) (gamma_map : IECoeffs) :
    DecomposeTree.nonVarMerge W (c :: cs) products i gamma_map =
      (if DecomposeTree.isVar c then DecomposeTree.nonVarMerge W cs products (i + 1) gamma_map
       else
         hashmap_reduce (DecomposeTree.cal_sv c (W gamma_map (products.getD i 0)))
           (DecomposeTree.nonVarMerge W cs products (i + 1) gamma_map)) := by
  simp [DecomposeTree.nonVarMerge]

theorem nonVarMerge_eq_mergeAll (W : IECoeffs → IECoeffs → IECoeffs)
    (products : List IECoeffs) (gamma_map : IECoeffs) :
    ∀ (cs : List DecomposeTree) (i : Nat),
      DecomposeTree.nonVarMerge W cs products i gamma_map =
        mergeAll (childResultsNV W cs products i gamma_map)
  | [], i => by simp [nonVarMerge_nil, childResultsNV, mergeAll]
  | c :: cs, i => by
      rw [nonVarMerge_cons]
      by_cases h : DecomposeTree.isVar c
      · rw [if_pos h, nonVarMerge_eq_mergeAll W products gamma_map cs (i + 1)]
        simp [childResultsNV, h]
      · rw [if_neg h, nonVarMerge_eq_mergeAll W products gamma_map cs (i + 1)]
        show mergeAll _ ++ _ = _
        rw [show childResultsNV W (c :: cs) products i gamma_map =
            DecomposeTree.cal_sv c (W gamma_map (products.getD i 0)) ::
              childResultsNV W cs products (i + 1) gamma_map by simp [childResultsNV, h]]
        rw [mergeAll_cons]

theorem insertVarShares_eq (sv : ℚ) :
    ∀ (cs : List DecomposeTree) (m : ShapleyValues),
      insertVarShares cs sv m =
        ((varOwners cs).reverse.map (fun a => (a, sv))) ++ m
  | [], m => by simp [insertVarShares, varOwners]
  | c :: cs, m => by
      cases hv : DecomposeTree.varId? c with
      | some a =>
          rw [show insertVarShares (c :: cs) sv m = insertVarShares cs sv ((a, sv) :: m) by
            simp [insertVarShares, hv]]
          rw [insertVarShares_eq sv cs ((a, sv) :: m)]
          simp [varOwners, List.filterMap_cons, hv]
      | none =>
          rw [show insertVarShares (c :: cs) sv m = insertVarShares cs sv m by
            simp [insertVarShares, hv]]
          rw [insertVarShares_eq sv cs m]
          simp [varOwners, List.filterMap_cons, hv]

theorem svFun_constMap (v : ℚ) (k : OwnerId) :
    ∀ (l : List OwnerId) (X : ShapleyValues),
      svFun ((l.map (fun a => (a, v))) ++ X) k = if k ∈ l then some v else svFun X k
  | [], X => by simp
  | a :: l, X => by
      rw [List.map_cons, List.cons_append, svFun_cons]
      by_cases h : a = k
      · subst h
        simp
      · rw [if_neg h, svFun_constMap v k l X]
        by_cases hk : k ∈ l
        · rw [if_pos hk, if_pos (List.mem_cons_of_mem a hk)]
        · rw [if_neg hk, if_neg (fun hm => by
            rcases List.mem_cons.mp hm with rfl | h2
            · exact h rfl
            · exact hk h2)]

theorem option_or_none (o : Option ℚ) : o.or none = o := by
  cases o <;> rfl

theorem varId?_eq_some (t : DecomposeTree) (a : OwnerId) :
    DecomposeTree.varId? t = some a ↔ t = DecomposeTree.Var a := by
  cases t <;> simp [DecomposeTree.varId?]

theorem isVar_of_varId?_some (t : DecomposeTree) (a : OwnerId)
    (h : DecomposeTree.varId? t = some a) : DecomposeTree.isVar t = true := by
  simp [DecomposeTree.isVar, h]

theorem isVar_of_varId?_none (t : DecomposeTree)
    (h : DecomposeTree.varId? t = none) : DecomposeTree.isVar t = false := by
  simp [DecomposeTree.isVar, h]

theorem varOwners_nil : varOwners [] = [] := rfl

theorem varOwners_cons_var (c : DecomposeTree) (cs : List DecomposeTree) (a : OwnerId)
    (h : DecomposeTree.varId? c = some a) : varOwners (c :: cs) = a :: varOwners cs := by
  simp [varOwners, List.filterMap_cons, h]

theorem varOwners_cons_nonvar (c : DecomposeTree) (cs : List DecomposeTree)
    (h : DecomposeTree.varId? c = none) : varOwners (c :: cs) = varOwners cs := by
  simp [varOwners, List.filterMap_cons, h]

theorem mem_varOwners (cs : List DecomposeTree) (a : OwnerId) :
    a ∈ varOwners cs ↔
      ∃ m, ∃ _ : m < cs.length, DecomposeTree.varId? (cs.getD m default) = some a := by
  unfold varOwners
  rw [List.mem_filterMap]
  constructor
  · rintro ⟨t, ht, hv⟩
    obtain ⟨m, hm, he⟩ := List.mem_iff_getElem.mp ht
    exact ⟨m, hm, by rw [List.getD_eq_getElem _ _ hm, he]; exact hv⟩
  · rintro ⟨m, hm, hv⟩
    refine ⟨cs.getD m default, ?_, hv⟩
    rw [List.getD_eq_getElem _ _ hm]
    exact List.getElem_mem hm

theorem firstVarIdx_none_iff :
    ∀ (cs : List DecomposeTree) (i : Nat), firstVarIdx cs i = none ↔ varOwners cs = []
  | [], i => by simp [firstVarIdx, varOwners_nil]
  | c :: cs, i => by
      cases hv : DecomposeTree.varId? c with
      | some a => simp [firstVarIdx, hv, varOwners_cons_var c cs a hv]
      | none =>
          rw [varOwners_cons_nonvar c cs hv, ← firstVarIdx_none_iff cs (i + 1)]
          simp [firstVarIdx, hv]

theorem firstVarIdx_spec :
    ∀ (cs : List DecomposeTree) (i j : Nat), firstVarIdx cs i = some j →
      ∃ m, ∃ _ : m < cs.length, j = i + m ∧
        (DecomposeTree.varId? (cs.getD m default)).isSome = true
  | [], i, j => by simp [firstVarIdx]
  | c :: cs, i, j => by
      cases hv : DecomposeTree.varId? c with
      | some a =>
          intro h
          have hj : j = i := by simpa [firstVarIdx, hv] using h.symm
          exact ⟨0, by simp, by simp [hj, hv]⟩
      | none =>
          intro h
          have h' : firstVarIdx cs (i + 1) = some j := by simpa [firstVarIdx, hv] using h
          obtain ⟨m, hm, hj, hs⟩ := firstVarIdx_spec cs (i + 1) j h'
          exact ⟨m + 1, by simpa using Nat.succ_lt_succ hm,
            by omega, by simpa using hs⟩

theorem childResults_cons (W : IECoeffs → IECoeffs → IECoeffs) (c : DecomposeTree)
    (cs : List DecomposeTree) (products : List IECoeffs) (i : Nat) (gamma_map : IECoeffs) :
    childResults W (c :: cs) products i gamma_map =
      DecomposeTree.cal_sv c (W gamma_map (products.getD i 0)) ::
        childResults W cs products (i + 1) gamma_map := rfl

/-- Central bookkeeping lemma for the conjunctive and disjunctive propagation branches: the
union of the per-child results (child `m` weighted by `W gamma_map products[i+m]`) looks up
to the uniform fast-path share `sv0` on the `Var` children's owners, and to the non-`Var`
merge everywhere else, provided the per-child key sets are pairwise disjoint and every
`Var` child's closed-form share equals `sv0`. -/
theorem mergeAll_childResults_eq (W : IECoeffs → IECoeffs → IECoeffs)
    (products : List IECoeffs) (gamma_map : IECoeffs) (sv0 : ℚ) :
    ∀ (cs : List DecomposeTree) (i : Nat),
      List.Pairwise svDisjoint (childResults W cs products i gamma_map) →
      (∀ m a, m < cs.length → DecomposeTree.varId? (cs.getD m default) = some a →
        (IECoeffs.mul (IECoeffs.single 1 1) (W gamma_map (products.getD (i + m) 0))).to_sv
          = sv0) →
      ∀ k, svFun (mergeAll (childResults W cs products i gamma_map)) k =
        if k ∈ varOwners cs then some sv0
        else svFun (mergeAll (childResultsNV W cs products i gamma_map)) k
  | [], i, hd, hb, k => by simp [childResults, childResultsNV, varOwners_nil]
  | c :: cs, i, hd, hb, k => by
      rw [childResults_cons] at hd ⊢
      rw [mergeAll_cons, svFun_append]
      have hd1 := (List.pairwise_cons.mp hd).1
      have hd2 := (List.pairwise_cons.mp hd).2
      have hb' : ∀ m a, m < cs.length → DecomposeTree.varId? (cs.getD m default) = some a →
          (IECoeffs.mul (IECoeffs.single 1 1)
            (W gamma_map (products.getD (i + 1 + m) 0))).to_sv = sv0 := by
        intro m a hm hv
        have := hb (m + 1) a (by simpa using Nat.succ_lt_succ hm) (by simpa using hv)
        rwa [show i + (m + 1) = i + 1 + m by omega] at this
      have ih := mergeAll_childResults_eq W products gamma_map sv0 cs (i + 1) hd2 hb'
      cases hv : DecomposeTree.varId? c with
      | some a =>
          obtain rfl : c = DecomposeTree.Var a := (varId?_eq_some c a).mp hv
          have hres : DecomposeTree.cal_sv (DecomposeTree.Var a)
              (W gamma_map (products.getD i 0)) =
              [(a, (IECoeffs.mul (IECoeffs.single 1 1)
                (W gamma_map (products.getD i 0))).to_sv)] := cal_sv_Var a _
          have hsv : (IECoeffs.mul (IECoeffs.single 1 1)
              (W gamma_map (products.getD i 0))).to_sv = sv0 := by
            have := hb 0 a (by simp) (by simpa using hv)
            simpa using this
          rw [varOwners_cons_var _ cs a hv,
            show childResultsNV W (DecomposeTree.Var a :: cs) products i gamma_map =
              childResultsNV W cs products (i + 1) gamma_map by
                simp [childResultsNV, isVar_of_varId?_some _ a hv]]
          by_cases hk : k = a
          · subst hk
            rw [if_pos (List.mem_cons_self _ _)]
            have hnone : svFun (mergeAll (childResults W cs products (i + 1) gamma_map)) k
                = none := by
              rw [svFun_eq_none_iff, mem_svKeys_mergeAll]
              rintro ⟨s, hs, hks⟩
              exact hd1 s hs k (by rw [hres]; exact List.mem_cons_self _ _) hks
            rw [hnone, Option.none_or, hres, svFun_cons, if_pos rfl, hsv]
          · have hresk : svFun (DecomposeTree.cal_sv (DecomposeTree.Var a)
                (W gamma_map (products.getD i 0))) k = none := by
              rw [hres, svFun_cons, if_neg (fun h => hk h.symm)]
              rfl
            rw [hresk, option_or_none, ih k]
            by_cases hk2 : k ∈ varOwners cs
            · rw [if_pos hk2, if_pos (List.mem_cons_of_mem a hk2)]
            · rw [if_neg hk2, if_neg (fun hm => by
                rcases List.mem_cons.mp hm with rfl | h2
                · exact hk rfl
                · exact hk2 h2)]
      | none =>
          rw [varOwners_cons_nonvar _ cs hv,
            show childResultsNV W (c :: cs) products i gamma_map =
              DecomposeTree.cal_sv c (W gamma_map (products.getD i 0)) ::
                childResultsNV W cs products (i + 1) gamma_map by
                  simp [childResultsNV, isVar_of_varId?_none _ hv],
            mergeAll_cons, svFun_append]
          by_cases hk : k ∈ varOwners cs
          · rw [if_pos hk]
            have : svFun (mergeAll (childResults W cs products (i + 1) gamma_map)) k
                = some sv0 := by rw [ih k, if_pos hk]
            rw [this, Option.or_some]
          · rw [if_neg hk]
            have : svFun (mergeAll (childResults W cs products (i + 1) gamma_map)) k
                = svFun (mergeAll (childResultsNV W cs products (i + 1) gamma_map)) k := by
              rw [ih k, if_neg hk]
            rw [this]

theorem coeffs_of_varId? (t : DecomposeTree) (a : OwnerId)
    (h : DecomposeTree.varId? t = some a) :
    DecomposeTree.coeffs t = IECoeffs.single 1 1 := by
  obtain rfl := (varId?_eq_some t a).mp h
  rfl

theorem coeffs_map_getD (cs : List DecomposeTree) (m : Nat) (hm : m < cs.length) :
    (cs.map DecomposeTree.coeffs).getD m 0 = DecomposeTree.coeffs (cs.getD m default) := by
  rw [List.getD_eq_getElem _ _ (by simpa using hm), List.getD_eq_getElem _ _ hm,
    List.getElem_map]

/-- Assembly lemma shared by the conjunctive and disjunctive branches: the branch body of
`cal_sv` (filtered recursion plus the `Var` fast path at the first `Var` index) has the same
lookup semantics as the union of the per-child results, each child taken at its own index's
all-but-one partial product, provided the stored `products` are the all-but-one partial
products of the children's coefficients under a commutative, associative operator with left
identity, and the per-child key sets are pairwise disjoint. -/
theorem branch_eq_childMerge (op : IECoeffs → IECoeffs → IECoeffs) (e : IECoeffs)
    (hc : ∀ x y, op x y = op y x) (ha : ∀ x y z, op (op x y) z = op x (op y z))
    (hid : ∀ x, op e x = x) (W : IECoeffs → IECoeffs → IECoeffs)
    (children : List DecomposeTree) (products : List IECoeffs) (gamma_map : IECoeffs)
    (hp : products = all_products op e (children.map DecomposeTree.coeffs))
    (hd : List.Pairwise svDisjoint (childResults W children products 0 gamma_map)) :
    svFun (match firstVarIdx children 0 with
       | none => DecomposeTree.nonVarMerge W children products 0 gamma_map
       | some i =>
           insertVarShares children
             ((IECoeffs.mul (IECoeffs.single 1 1) (W gamma_map (products.getD i 0))).to_sv)
             (DecomposeTree.nonVarMerge W children products 0 gamma_map))
      = svFun (mergeAll (childResults W children products 0 gamma_map)) := by
  funext k
  cases hfv : firstVarIdx children 0 with
  | none =>
      have hvo : varOwners children = [] := (firstVarIdx_none_iff children 0).mp hfv
      have hb : ∀ m a, m < children.length →
          DecomposeTree.varId? (children.getD m default) = some a →
          (IECoeffs.mul (IECoeffs.single 1 1)
            (W gamma_map (products.getD (0 + m) 0))).to_sv = 0 := by
        intro m a hm hv
        exact absurd ((mem_varOwners children a).mpr ⟨m, hm, hv⟩) (by simp [hvo])
      show svFun (DecomposeTree.nonVarMerge W children products 0 gamma_map) k = _
      rw [mergeAll_childResults_eq W products gamma_map 0 children 0 hd hb k,
        if_neg (by simp [hvo]), nonVarMerge_eq_mergeAll]
  | some i0 =>
      obtain ⟨m0, hm0, hj, hsome⟩ := firstVarIdx_spec children 0 i0 hfv
      have hi0 : i0 = m0 := by omega
      obtain ⟨a0, ha0⟩ := Option.isSome_iff_exists.mp hsome
      have hb : ∀ m a, m < children.length →
          DecomposeTree.varId? (children.getD m default) = some a →
          (IECoeffs.mul (IECoeffs.single 1 1)
              (W gamma_map (products.getD (0 + m) 0))).to_sv =
            (IECoeffs.mul (IECoeffs.single 1 1)
              (W gamma_map (products.getD i0 0))).to_sv := by
        intro m a hm hv
        have hpm : products.getD m 0 = products.getD i0 0 := by
          subst hi0
          rw [hp]
          refine all_products_getD_eq op e hc ha hid (children.map DecomposeTree.coeffs) m i0
            (by simpa using hm) (by simpa using hm0) ?_
          rw [coeffs_map_getD children m hm, coeffs_map_getD children i0 hm0,
            coeffs_of_varId? _ _ hv, coeffs_of_varId? _ _ ha0]
        rw [Nat.zero_add, hpm]
      show svFun (insertVarShares children
          ((IECoeffs.mul (IECoeffs.single 1 1) (W gamma_map (products.getD i0 0))).to_sv)
          (DecomposeTree.nonVarMerge W children products 0 gamma_map)) k = _
      rw [mergeAll_childResults_eq W products gamma_map _ children 0 hd hb k,
        insertVarShares_eq, nonVarMerge_eq_mergeAll, svFun_constMap]
      by_cases hk : k ∈ varOwners children
      · rw [if_pos (List.mem_reverse.mpr hk), if_pos hk]
      · rw [if_neg (fun h => hk (List.mem_reverse.mp h)), if_neg hk]

/-- C3: in the propagation pass, a Conjunctive (`And`) node with accumulated weight
`gamma_map` whose stored partial products are the all-but-one products of its children's
coefficients produces, as a per-owner mapping, exactly the union of the per-child results in
which the child at index `i` recurses with child weight `gamma_map * products[i]` — the
all-but-one partial product over the other children's coefficients — provided the children's
per-owner key sets are pairwise disjoint. -/
theorem and_node_child_weights_and_merge (co : Option IECoeffs) (products : List IECoeffs)
    (children : List DecomposeTree) (gamma_map : IECoeffs)
    (hp : products =
      all_products vertical_op vertical_identity (children.map DecomposeTree.coeffs))
    (hd : List.Pairwise svDisjoint
      (childResults (fun g p => IECoeffs.mul g p) children products 0 gamma_map)) :
    svFun (DecomposeTree.cal_sv (.And co products children) gamma_map)
      = svFun (mergeAll
          (childResults (fun g p => IECoeffs.mul g p) children products 0 gamma_map)) := by
  rw [cal_sv_And]
  exact branch_eq_childMerge vertical_op vertical_identity vertical_op_comm vertical_op_assoc
    vertical_op_id_left (fun g p => IECoeffs.mul g p) children products gamma_map hp hd

/-- Witness for C3 at a concrete two-child conjunctive node. -/
theorem and_node_child_weights_and_merge_witness :
    svFun (DecomposeTree.cal_sv
        (.And none
          (all_products vertical_op vertical_identity
            ([DecomposeTree.Var 1, DecomposeTree.Var 2].map DecomposeTree.coeffs))
          [DecomposeTree.Var 1, DecomposeTree.Var 2]) (IECoeffs.single 0 1))
      = svFun (mergeAll (childResults (fun g p => IECoeffs.mul g p)
          [DecomposeTree.Var 1, DecomposeTree.Var 2]
          (all_products vertical_op vertical_identity
            ([DecomposeTree.Var 1, DecomposeTree.Var 2].map DecomposeTree.coeffs)) 0
          (IECoeffs.single 0 1))) :=
  and_node_child_weights_and_merge none _ _ _ rfl (by
    simp [childResults, cal_sv_Var, List.pairwise_cons, svDisjoint, svKeys])

/-- C4: in the propagation pass, a Disjunctive (`Or`) node with accumulated weight
`gamma_map` whose stored partial products are the all-but-one combinations (under the
disjunctive combining operator) of its children's coefficients produces exactly the union
of the per-child results in which the child at index `i` recurses with child weight
`gamma_map - gamma_map * products[i]`, provided the children's per-owner key sets are
pairwise disjoint. -/
theorem or_node_child_weights_and_merge (co : Option IECoeffs) (products : List IECoeffs)
    (children : List DecomposeTree) (gamma_map : IECoeffs)
    (hp : products =
      all_products horizontal_op horizontal_identity (children.map DecomposeTree.coeffs))
    (hd : List.Pairwise svDisjoint
      (childResults (fun g p => IECoeffs.sub g (IECoeffs.mul g p))
        children products 0 gamma_map)) :
    svFun (DecomposeTree.cal_sv (.Or co products children) gamma_map)
      = svFun (mergeAll
          (childResults (fun g p => IECoeffs.sub g (IECoeffs.mul g p))
            children products 0 gamma_map)) := by
  rw [cal_sv_Or]
  exact branch_eq_childMerge horizontal_op horizontal_identity horizontal_op_comm
    horizontal_op_assoc horizontal_op_zero_left
    (fun g p => IECoeffs.sub g (IECoeffs.mul g p)) children products gamma_map hp hd

/-- Witness for C4 at a concrete two-child disjunctive node. -/
theorem or_node_child_weights_and_merge_witness :
    svFun (DecomposeTree.cal_sv
        (.Or none
          (all_products horizontal_op horizontal_identity
            ([DecomposeTree.Var 1, DecomposeTree.Var 2].map DecomposeTree.coeffs))
          [DecomposeTree.Var 1, DecomposeTree.Var 2]) (IECoeffs.single 0 1))
      = svFun (mergeAll (childResults (fun g p => IECoeffs.sub g (IECoeffs.mul g p))
          [DecomposeTree.Var 1, DecomposeTree.Var 2]
          (all_products horizontal_op horizontal_identity
            ([DecomposeTree.Var 1, DecomposeTree.Var 2].map DecomposeTree.coeffs)) 0
          (IECoeffs.single 0 1))) :=
  or_node_child_weights_and_merge none _ _ _ rfl (by
    simp [childResults, cal_sv_Var, List.pairwise_cons, svDisjoint, svKeys])

theorem var_products_getD_eq (op : IECoeffs → IECoeffs → IECoeffs) (e : IECoeffs)
    (hc : ∀ x y, op x y = op y x) (ha : ∀ x y z, op (op x y) z = op x (op y z))
    (hid : ∀ x, op e x = x) (children : List DecomposeTree) (x y : Nat) (ax ay : OwnerId)
    (hx : x < children.length) (hy : y < children.length)
    (hvx : DecomposeTree.varId? (children.getD x default) = some ax)
    (hvy : DecomposeTree.varId? (children.getD y default) = some ay) :
    (all_products op e (children.map DecomposeTree.coeffs)).getD x 0 =
      (all_products op e (children.map DecomposeTree.coeffs)).getD y 0 := by
  refine all_products_getD_eq op e hc ha hid (children.map DecomposeTree.coeffs) x y
    (by simpa using hx) (by simpa using hy) ?_
  rw [coeffs_map_getD children x hx, coeffs_map_getD children y hy,
    coeffs_of_varId? _ _ hvx, coeffs_of_varId? _ _ hvy]

theorem firstVarIdx_isSome_of_var (children : List DecomposeTree) (i : Nat) (a : OwnerId)
    (hi : i < children.length)
    (hva : DecomposeTree.varId? (children.getD i default) = some a) :
    ∃ i0, firstVarIdx children 0 = some i0 := by
  cases h : firstVarIdx children 0 with
  | none =>
      have hvo := (firstVarIdx_none_iff children 0).mp h
      have : a ∈ varOwners children := (mem_varOwners children a).mpr ⟨i, hi, hva⟩
      rw [hvo] at this
      cases this
  | some i0 => exact ⟨i0, rfl⟩

theorem mem_varOwners_of_var (children : List DecomposeTree) (i : Nat) (a : OwnerId)
    (hi : i < children.length)
    (hva : DecomposeTree.varId? (children.getD i default) = some a) :
    a ∈ varOwners children := (mem_varOwners children a).mpr ⟨i, hi, hva⟩

/-- C10: in the `And` and `Or` branches of propagation, the fast path is sound: because
every `Var` child's coefficient is the same unit value `[(1, 1)]`, the all-but-one partial
products at any two `Var` child indices are equal (for the conjunctive and the disjunctive
combining operator alike), and the single share computed from the first `Var` index and
assigned to every `Var` child equals the share obtained by recursing into that child with
its own index's partial product. -/
theorem var_fast_path_consistent (co : Option IECoeffs) (children : List DecomposeTree)
    (gamma_map : IECoeffs) (i j : Nat) (a b : OwnerId)
    (hi : i < children.length) (hj : j < children.length)
    (hva : DecomposeTree.varId? (children.getD i default) = some a)
    (hvb : DecomposeTree.varId? (children.getD j default) = some b)
    (products_v products_h : List IECoeffs)
    (hpv : products_v =
      all_products vertical_op vertical_identity (children.map DecomposeTree.coeffs))
    (hph : products_h =
      all_products horizontal_op horizontal_identity (children.map DecomposeTree.coeffs)) :
    products_v.getD i 0 = products_v.getD j 0 ∧
    products_h.getD i 0 = products_h.getD j 0 ∧
    svFun (DecomposeTree.cal_sv (.And co products_v children) gamma_map) a
      = svFun (DecomposeTree.cal_sv (.Var a)
          (IECoeffs.mul gamma_map (products_v.getD i 0))) a ∧
    svFun (DecomposeTree.cal_sv (.Or co products_h children) gamma_map) a
      = svFun (DecomposeTree.cal_sv (.Var a)
          (IECoeffs.sub gamma_map (IECoeffs.mul gamma_map (products_h.getD i 0)))) a := by
  obtain ⟨i0, hfv⟩ := firstVarIdx_isSome_of_var children i a hi hva
  obtain ⟨m0, hm0, hj0, hsome0⟩ := firstVarIdx_spec children 0 i0 hfv
  have hi0 : i0 = m0 := by omega
  subst hi0
  obtain ⟨a0, ha0⟩ := Option.isSome_iff_exists.mp hsome0
  have hmem : a ∈ varOwners children := mem_varOwners_of_var children i a hi hva
  refine ⟨?_, ?_, ?_, ?_⟩
  · rw [hpv]
    exact var_products_getD_eq vertical_op vertical_identity vertical_op_comm
      vertical_op_assoc vertical_op_id_left children i j a b hi hj hva hvb
  · rw [hph]
    exact var_products_getD_eq horizontal_op horizontal_identity horizontal_op_comm
      horizontal_op_assoc horizontal_op_zero_left children i j a b hi hj hva hvb
  · rw [cal_sv_And, hfv]
    show svFun (insertVarShares children
        ((IECoeffs.mul (IECoeffs.single 1 1)
          (IECoeffs.mul gamma_map (products_v.getD i0 0))).to_sv)
        (DecomposeTree.nonVarMerge (fun g p => IECoeffs.mul g p)
          children products_v 0 gamma_map)) a = _
    rw [insertVarShares_eq, svFun_constMap, if_pos (List.mem_reverse.mpr hmem),
      cal_sv_Var, svFun_cons, if_pos rfl]
    have : products_v.getD i0 0 = products_v.getD i 0 := by
      rw [hpv]
      exact var_products_getD_eq vertical_op vertical_identity vertical_op_comm
        vertical_op_assoc vertical_op_id_left children i0 i a0 a hm0 hi ha0 hva
    rw [this]
  · rw [cal_sv_Or, hfv]
    show svFun (insertVarShares children
        ((IECoeffs.mul (IECoeffs.single 1 1)
          (IECoeffs.sub gamma_map (IECoeffs.mul gamma_map (products_h.getD i0 0)))).to_sv)
        (DecomposeTree.nonVarMerge (fun g p => IECoeffs.sub g (IECoeffs.mul g p))
          children products_h 0 gamma_map)) a = _
    rw [insertVarShares_eq, svFun_constMap, if_pos (List.mem_reverse.mpr hmem),
      cal_sv_Var, svFun_cons, if_pos rfl]
    have : products_h.getD i0 0 = products_h.getD i 0 := by
      rw [hph]
      exact var_products_getD_eq horizontal_op horizontal_identity horizontal_op_comm
        horizontal_op_assoc horizontal_op_zero_left children i0 i a0 a hm0 hi ha0 hva
    rw [this]

/-- Witness for C10 at a concrete node with two `Var` children. -/
theorem var_fast_path_consistent_witness :
    (all_products vertical_op vertical_identity
        ([DecomposeTree.Var 5, DecomposeTree.Var 7].map DecomposeTree.coeffs)).getD 0 0 =
      (all_products vertical_op vertical_identity
        ([DecomposeTree.Var 5, DecomposeTree.Var 7].map DecomposeTree.coeffs)).getD 1 0 ∧
    (all_products horizontal_op horizontal_identity
        ([DecomposeTree.Var 5, DecomposeTree.Var 7].map DecomposeTree.coeffs)).getD 0 0 =
      (all_products horizontal_op horizontal_identity
        ([DecomposeTree.Var 5, DecomposeTree.Var 7].map DecomposeTree.coeffs)).getD 1 0 ∧
    svFun (DecomposeTree.cal_sv
        (.And none
          (all_products vertical_op vertical_identity
            ([DecomposeTree.Var 5, DecomposeTree.Var 7].map DecomposeTree.coeffs))
          [DecomposeTree.Var 5, DecomposeTree.Var 7]) (IECoeffs.single 0 1)) 5
      = svFun (DecomposeTree.cal_sv (.Var 5)
          (IECoeffs.mul (IECoeffs.single 0 1)
            ((all_products vertical_op vertical_identity
              ([DecomposeTree.Var 5, DecomposeTree.Var 7].map
                DecomposeTree.coeffs)).getD 0 0))) 5 ∧
    svFun (DecomposeTree.cal_sv
        (.Or none
          (all_products horizontal_op horizontal_identity
            ([DecomposeTree.Var 5, DecomposeTree.Var 7].map DecomposeTree.coeffs))
          [DecomposeTree.Var 5, DecomposeTree.Var 7]) (IECoeffs.single 0 1)) 5
      = svFun (DecomposeTree.cal_sv (.Var 5)
          (IECoeffs.sub (IECoeffs.single 0 1)
            (IECoeffs.mul (IECoeffs.single 0 1)
              ((all_products horizontal_op horizontal_identity
                ([DecomposeTree.Var 5, DecomposeTree.Var 7].map
                  DecomposeTree.coeffs)).getD 0 0)))) 5 :=
  var_fast_path_consistent none [DecomposeTree.Var 5, DecomposeTree.Var 7]
    (IECoeffs.single 0 1) 0 1 5 7 (by decide) (by decide) rfl rfl _ _ rfl rfl

theorem svFun_mergeAll_keyed (sh : OwnerId → ℚ) (k : OwnerId) :
    ∀ (l : List OwnerId),
      svFun (mergeAll (l.map (fun c => [(c, sh c)]))) k =
        if k ∈ l then some (sh k) else none
  | [] => by simp [mergeAll, svFun]
  | c :: l => by
      rw [List.map_cons, mergeAll_cons, svFun_append, svFun_mergeAll_keyed sh k l]
      by_cases hk : k ∈ l
      · rw [if_pos hk, Option.or_some, if_pos (List.mem_cons_of_mem c hk)]
      · rw [if_neg hk, Option.none_or]
        by_cases hck : c = k
        · subst hck
          rw [svFun_cons, if_pos rfl, if_pos (List.mem_cons_self _ _)]
        · rw [svFun_cons, if_neg hck, if_neg (fun hm => by
            rcases List.mem_cons.mp hm with rfl | h2
            · exact hck rfl
            · exact hk h2)]
          rfl

/-- C5: in the irreducible-leaf branch of propagation, for a variable `c` of the leaf's
formula, if fixing `c` true leaves no remaining variables the next weight is
`gamma_map - gamma_map * interaction`, otherwise it is
`gamma_map * (direct - interaction)`, and `c`'s share is the scalar evaluation of the unit
coefficient `[(1, 1)]` times that next weight. -/
theorem leaf_branch_weight_conditional (co : Option IECoeffs) (exp : Dnf)
    (gamma_map : IECoeffs) (c : OwnerId) (hc : c ∈ Dnf.allVars exp) :
    svFun (DecomposeTree.cal_sv (.Leaf co exp) gamma_map) c =
      some ((IECoeffs.mul (IECoeffs.single 1 1)
        (if Dnf.allVars (Dnf.fixTrue exp {c}) = ∅ then
          IECoeffs.sub gamma_map (IECoeffs.mul gamma_map
            (leaf_exp_unions_interaction (leaf_exp_to_unions (Dnf.fixTrue exp {c}))
              (leaf_exp_to_unions (Dnf.expComplement exp {c}))))
        else
          IECoeffs.mul gamma_map (IECoeffs.sub
            (leaf_exp_unions_coeffs (leaf_exp_to_unions (Dnf.fixTrue exp {c})))
            (leaf_exp_unions_interaction (leaf_exp_to_unions (Dnf.fixTrue exp {c}))
              (leaf_exp_to_unions (Dnf.expComplement exp {c})))))).to_sv) := by
  rw [cal_sv_Leaf]
  unfold leafSv
  rw [svFun_mergeAll_keyed
    (fun x => (IECoeffs.mul (IECoeffs.single 1 1) (leafVarNext exp gamma_map x)).to_sv) c
    ((Dnf.allVars exp).sort (· ≤ ·)),
    if_pos ((Finset.mem_sort (α := Nat) (· ≤ ·)).mpr hc)]
  rfl

/-- Witness for C5 at the concrete leaf formula `{1, 2}` and variable 1. -/
theorem leaf_branch_weight_conditional_witness :
    svFun (DecomposeTree.cal_sv (.Leaf none [{1, 2}]) (IECoeffs.single 0 1)) 1 =
      some ((IECoeffs.mul (IECoeffs.single 1 1)
        (if Dnf.allVars (Dnf.fixTrue [{1, 2}] {1}) = ∅ then
          IECoeffs.sub (IECoeffs.single 0 1) (IECoeffs.mul (IECoeffs.single 0 1)
            (leaf_exp_unions_interaction (leaf_exp_to_unions (Dnf.fixTrue [{1, 2}] {1}))
              (leaf_exp_to_unions (Dnf.expComplement [{1, 2}] {1}))))
        else
          IECoeffs.mul (IECoeffs.single 0 1) (IECoeffs.sub
            (leaf_exp_unions_coeffs (leaf_exp_to_unions (Dnf.fixTrue [{1, 2}] {1})))
            (leaf_exp_unions_interaction (leaf_exp_to_unions (Dnf.fixTrue [{1, 2}] {1}))
              (leaf_exp_to_unions (Dnf.expComplement [{1, 2}] {1})))))).to_sv) :=
  leaf_branch_weight_conditional none [{1, 2}] (IECoeffs.single 0 1) 1 (by decide)

/-- C6: the coefficient stored on a non-root irreducible leaf is exactly the sum, over
every union produced by the union-combination enumeration of the leaf's implicants (with
its pruning of unions reaching full variable coverage before the last implicant), of the
term of group size the merged union's cardinality and sign +1 for an odd number of merged
implicants and -1 for an even number. -/
theorem leaf_coeffs_inclusion_exclusion (d : RecursiveDecompose) (ab : AblationType)
    (co : Option IECoeffs) (exp : Dnf)
    (h : DecomposeTree.new d false ab = DecomposeTree.Leaf co exp) :
    co = some (((leaf_exp_to_unions exp).map
      (fun u => IECoeffs.single u.input_set.card
        (if u.num_of_imp % 2 = 0 then -1 else 1))).sum) := by
  have key : ∀ input : RecursiveDecompose,
      DecomposeTree.mkLeaf input false = DecomposeTree.Leaf co exp →
      co = some (((leaf_exp_to_unions exp).map
        (fun u => IECoeffs.single u.input_set.card
          (if u.num_of_imp % 2 = 0 then -1 else 1))).sum) := by
    intro input hi
    rw [show DecomposeTree.mkLeaf input false =
        DecomposeTree.Leaf
          (some (leaf_exp_unions_coeffs
            (leaf_exp_to_unions (RecursiveDecompose.expand input))))
          (RecursiveDecompose.expand input) from rfl] at hi
    obtain ⟨hco, hexp⟩ := DecomposeTree.Leaf.inj hi
    rw [hexp] at hco
    exact hco.symm
  cases d with
  | Var id => simp [DecomposeTree.new] at h
  | And cs =>
      rw [show DecomposeTree.new (.And cs) false ab =
          (if ab = AblationType.NoVertical then DecomposeTree.mkLeaf (.And cs) false
           else
             DecomposeTree.And
               (some ((DecomposeTree.newList cs ab).map DecomposeTree.coeffs |>.foldr
                 vertical_op vertical_identity))
               (all_products vertical_op vertical_identity
                 ((DecomposeTree.newList cs ab).map DecomposeTree.coeffs))
               (DecomposeTree.newList cs ab)) by
        simp [DecomposeTree.new]] at h
      split at h
      · exact key _ h
      · exact absurd h (by simp)
  | Or cs =>
      rw [show DecomposeTree.new (.Or cs) false ab =
          (if ab = AblationType.NoHorizontal then DecomposeTree.mkLeaf (.Or cs) false
           else
             DecomposeTree.Or
               (some ((DecomposeTree.newList cs ab).map DecomposeTree.coeffs |>.foldr
                 horizontal_op horizontal_identity))
               (all_products horizontal_op horizontal_identity
                 ((DecomposeTree.newList cs ab).map DecomposeTree.coeffs))
               (DecomposeTree.newList cs ab)) by
        simp [DecomposeTree.new]] at h
      split at h
      · exact key _ h
      · exact absurd h (by simp)
  | Hybrid hexp subs =>
      rw [show DecomposeTree.new (.Hybrid hexp subs) false ab =
          (if ab = AblationType.NoHybrid then
            DecomposeTree.mkLeaf (.Hybrid hexp subs) false
           else
             DecomposeTree.Hybrid
               (some (HybridCoeffs.exp_coeffs
                 (HybridCoeffs.new ((DecomposeTree.newList subs ab).map DecomposeTree.coeffs))
                 hexp))
               (HybridCoeffs.new ((DecomposeTree.newList subs ab).map DecomposeTree.coeffs))
               hexp (DecomposeTree.newList subs ab)) by
        simp [DecomposeTree.new]] at h
      split at h
      · exact key _ h
      · exact absurd h (by simp)
  | Exp e =>
      rw [show DecomposeTree.new (.Exp e) false ab = DecomposeTree.mkLeaf (.Exp e) false by
        simp [DecomposeTree.new]] at h
      exact key _ h

/-- Witness for C6 at the concrete undecomposable formula `[{1}]`. -/
theorem leaf_coeffs_inclusion_exclusion_witness :
    some (leaf_exp_unions_coeffs (leaf_exp_to_unions [{1}])) =
      some (((leaf_exp_to_unions ([{1}] : Dnf)).map
        (fun u => IECoeffs.single u.input_set.card
          (if u.num_of_imp % 2 = 0 then -1 else 1))).sum) :=
  leaf_coeffs_inclusion_exclusion (.Exp [{1}]) .NoHybrid
    (some (leaf_exp_unions_coeffs (leaf_exp_to_unions [{1}]))) [{1}]
    (by simp [DecomposeTree.new, DecomposeTree.mkLeaf, RecursiveDecompose.expand])

/-- C7 counterexample: the claim also asserts a setting that disables none of the three
decomposition modes, but the ablation enum has only the three values `NoHorizontal`,
`NoVertical`, `NoHybrid`, and each of them disables one mode, so no such neutral setting
exists. -/
theorem ablation_no_neutral_setting :
    ¬ ∃ a : AblationType, AblationType.disablesVertical a = false ∧
      AblationType.disablesHorizontal a = false ∧ AblationType.disablesHybrid a = false := by
  rintro ⟨a, h1, h2, h3⟩
  cases a
  · exact absurd h2 (by simp [AblationType.disablesHorizontal])
  · exact absurd h1 (by simp [AblationType.disablesVertical])
  · exact absurd h3 (by simp [AblationType.disablesHybrid])

/-- C7 (amended): the ablation configuration takes one of exactly three named values —
`NoHorizontal`, `NoVertical`, `NoHybrid` — each of which disables exactly one of the
disjunctive, conjunctive or hybrid decomposition modes (a non-root node of the disabled
kind is built as an expanded leaf, any other combination is decomposed); there is no
setting that disables none of the modes. -/
theorem ablation_exactly_three_each_disables_one (a : AblationType) :
    (a = AblationType.NoHorizontal ∨ a = AblationType.NoVertical ∨
      a = AblationType.NoHybrid) ∧
    (AblationType.NoHorizontal ≠ AblationType.NoVertical ∧
      AblationType.NoHorizontal ≠ AblationType.NoHybrid ∧
      AblationType.NoVertical ≠ AblationType.NoHybrid) ∧
    ((cond (AblationType.disablesVertical a) 1 0) +
      (cond (AblationType.disablesHorizontal a) 1 0) +
      (cond (AblationType.disablesHybrid a) 1 0) = 1) ∧
    (∀ cs, DecomposeTree.isLeaf (DecomposeTree.new (.And cs) false a)
      = AblationType.disablesVertical a) ∧
    (∀ cs, DecomposeTree.isLeaf (DecomposeTree.new (.Or cs) false a)
      = AblationType.disablesHorizontal a) ∧
    (∀ he subs, DecomposeTree.isLeaf (DecomposeTree.new (.Hybrid he subs) false a)
      = AblationType.disablesHybrid a) := by
  refine ⟨?_, by decide, ?_, ?_, ?_, ?_⟩
  · cases a
    · exact Or.inl rfl
    · exact Or.inr (Or.inl rfl)
    · exact Or.inr (Or.inr rfl)
  · cases a <;> decide
  · intro cs
    cases a <;>
      simp [DecomposeTree.new, DecomposeTree.mkLeaf, DecomposeTree.isLeaf,
        AblationType.disablesVertical]
  · intro cs
    cases a <;>
      simp [DecomposeTree.new, DecomposeTree.mkLeaf, DecomposeTree.isLeaf,
        AblationType.disablesHorizontal]
  · intro he subs
    cases a <;>
      simp [DecomposeTree.new, DecomposeTree.mkLeaf, DecomposeTree.isLeaf,
        AblationType.disablesHybrid]

/-- C8: the defensive merge asserts that the key sets of the two per-owner maps are
disjoint: it returns the union exactly when no key collides, and fails loudly (`none`,
modelling the panic) exactly when some key occurs in both maps. -/
theorem merge_asserts_disjointness (a b : ShapleyValues) :
    (hashmap_reduce_checked a b = some (hashmap_reduce a b) ↔
      ∀ k ∈ svKeys a, k ∉ svKeys b) ∧
    (hashmap_reduce_checked a b = none ↔ ∃ k ∈ svKeys a, k ∈ svKeys b) := by
  unfold hashmap_reduce_checked
  by_cases h : ∀ k ∈ svKeys a, k ∉ svKeys b
  · rw [if_pos h]
    constructor
    · exact ⟨fun _ => h, fun _ => rfl⟩
    · constructor
      · intro hn
        cases hn
      · rintro ⟨k, hk1, hk2⟩
        exact absurd hk2 (h k hk1)
  · rw [if_neg h]
    constructor
    · constructor
      · intro hn
        cases hn
      · intro hall
        exact absurd hall h
    · constructor
      · intro _
        push_neg at h
        obtain ⟨k, hk1, hk2⟩ := h
        exact ⟨k, hk1, hk2⟩
      · intro _
        rfl

/-- C9: every `DecomposeTree` node constructed with `is_root = false` carries `Some`
coefficient, so the `unwrap` inside `DecomposeTree::coeffs` — which the builder invokes
only on children, all built with `is_root = false` — can never panic (the propagation pass
never reads `coeffs` at all). -/
theorem child_coeffs_always_some (d : RecursiveDecompose) (ab : AblationType) :
    (DecomposeTree.coeffsOpt (DecomposeTree.new d false ab)).isSome = true := by
  cases d with
  | Var id => simp [DecomposeTree.new, DecomposeTree.coeffsOpt]
  | And cs =>
      by_cases h : ab = AblationType.NoVertical <;>
        simp [DecomposeTree.new, DecomposeTree.mkLeaf, DecomposeTree.coeffsOpt, h]
  | Or cs =>
      by_cases h : ab = AblationType.NoHorizontal <;>
        simp [DecomposeTree.new, DecomposeTree.mkLeaf, DecomposeTree.coeffsOpt, h]
  | Hybrid hexp subs =>
      by_cases h : ab = AblationType.NoHybrid <;>
        simp [DecomposeTree.new, DecomposeTree.mkLeaf, DecomposeTree.coeffsOpt, h]
  | Exp e => simp [DecomposeTree.new, DecomposeTree.mkLeaf, DecomposeTree.coeffsOpt]

end RecursiveDecomposeAblation

